import Mathlib

/-!
Verification development for the blocked Householder "generate Q" core of the
tlapack repository slice: `laset` (src/include/lapack/laset.hpp), the blocked
LQ-generation driver `unglq` and its workspace query `unglq_worksize`
(src/include/tlapack/lapack/unglq.hpp), and the legacy wrapper `ung2r`
(src/include/legacy_api/lapack/ung2r.hpp).

Matrices are shallowly embedded as total functions `Nat → Nat → α` together
with explicit extent parameters `m`, `n`, mirroring the element-access view
abstraction of the C++ source.  Loops are embedded as folds over the index
lists that the corresponding C++ `for` loops enumerate.  Machine index
arithmetic (`idx_t`, unsigned) is embedded as `Nat`, with wraparound made
explicit (mod `2 ^ 64`) at the one place where the source may underflow.
-/

namespace Tlapack

/-- A matrix over scalars `α`: element access by (row, column) index.
Extents are carried separately by each algorithm, as in the source where
`nrows`/`ncols` are queried from the view. -/
abbrev Mat (α : Type) := Nat → Nat → α

/-- Single element write `A(i,j) = v`, the effect of one C++ assignment. -/
def writeM {α : Type} (A : Mat α) (i j : Nat) (v : α) : Mat α :=
  fun i' j' => if i' = i ∧ j' = j then v else A i' j'

theorem writeM_apply {α : Type} (A : Mat α) (i j : Nat) (v : α) (i' j' : Nat) :
    writeM A i j v i' j' = if i' = i ∧ j' = j then v else A i' j' := rfl

/-- Effect of the inner C++ loop `for i in l: A(i,j) = v` on one entry. -/
theorem foldl_writeM_col {α : Type} (v : α) (j : Nat) :
    ∀ (l : List Nat) (A : Mat α) (i' j' : Nat),
      (l.foldl (fun B i => writeM B i j v) A) i' j' =
        if i' ∈ l ∧ j' = j then v else A i' j' := by
  intro l
  induction l with
  | nil => intro A i' j'; simp
  | cons a t ih =>
      intro A i' j'
      simp only [List.foldl_cons]
      rw [ih]
      by_cases hj : j' = j
      · by_cases ha : i' = a
        · by_cases ht : i' ∈ t <;> simp [writeM, hj, ha, ht]
        · by_cases ht : i' ∈ t <;> simp [writeM, hj, ha, ht]
      · simp [writeM, hj]

/-- Effect of the doubly nested C++ loop
`for j in js: for i in f j: A(i,j) = v` on one entry. -/
theorem foldl_writeM_grid {α : Type} (v : α) (f : Nat → List Nat) :
    ∀ (js : List Nat) (A : Mat α) (i' j' : Nat),
      (js.foldl (fun B j => (f j).foldl (fun C i => writeM C i j v) B) A) i' j' =
        if j' ∈ js ∧ i' ∈ f j' then v else A i' j' := by
  intro js
  induction js with
  | nil => intro A i' j'; simp
  | cons a t ih =>
      intro A i' j'
      simp only [List.foldl_cons]
      rw [ih, foldl_writeM_col]
      by_cases hj : j' ∈ t
      · by_cases hf : i' ∈ f j'
        · simp [hj, hf]
        · by_cases hja : j' = a
          · subst hja; simp [hj, hf]
          · simp [hj, hf, hja]
      · by_cases hja : j' = a
        · subst hja
          by_cases hf : i' ∈ f j' <;> simp [hj, hf]
        · simp [hj, hja]

/-- Effect of the diagonal C++ loop `for i in l: A(i,i) = v` on one entry. -/
theorem foldl_writeM_diag {α : Type} (v : α) :
    ∀ (l : List Nat) (A : Mat α) (i' j' : Nat),
      (l.foldl (fun B i => writeM B i i v) A) i' j' =
        if i' ∈ l ∧ j' = i' then v else A i' j' := by
  intro l
  induction l with
  | nil => intro A i' j'; simp
  | cons a t ih =>
      intro A i' j'
      simp only [List.foldl_cons]
      rw [ih]
      by_cases hj : j' = i'
      · by_cases ha : i' = a
        · by_cases ht : i' ∈ t <;> simp [writeM, hj, ha, ht]
        · by_cases ht : i' ∈ t <;> simp [writeM, hj, ha, ht]
      · simp [writeM, hj]
        rintro rfl rfl
        exact absurd rfl hj

/-! ### laset (src/include/lapack/laset.hpp) -/

/-- The `uplo` selector of `laset`.  The C++ argument is checked to be one of
these three values (`blas_error_if` at laset.hpp lines 51-53), so the embedding
uses the three-valued enumeration directly. -/
inductive Uplo where
  | Upper : Uplo
  | Lower : Uplo
  | General : Uplo
deriving DecidableEq

/-- `laset(uplo, alpha, beta, A)` from laset.hpp lines 38-84: fill the
selected triangular/trapezoidal part with `alpha`, then overwrite the first
`min m n` diagonal entries with `beta`.  Loop bounds are exactly those of the
source: Upper fills `(i,j)` for `1 ≤ j < n`, `0 ≤ i < min m j`; Lower fills
`(i,j)` for `0 ≤ j < min m n`, `j+1 ≤ i < m`; General fills everything. -/
def laset {α : Type} (uplo : Uplo) (alpha beta : α) (m n : Nat) (A : Mat α) :
    Mat α :=
  let A1 : Mat α :=
    match uplo with
    | Uplo.Upper =>
        (List.range' 1 (n - 1)).foldl
          (fun B j => (List.range (min m j)).foldl
            (fun C i => writeM C i j alpha) B) A
    | Uplo.Lower =>
        (List.range (min m n)).foldl
          (fun B j => (List.range' (j + 1) (m - (j + 1))).foldl
            (fun C i => writeM C i j alpha) B) A
    | Uplo.General =>
        (List.range n).foldl
          (fun B j => (List.range m).foldl
            (fun C i => writeM C i j alpha) B) A
  (List.range (min m n)).foldl (fun B i => writeM B i i beta) A1

/-- C9: with `uplo = Upper`, `laset` writes only strictly-upper entries and
the first `min m n` diagonal entries, so every strictly-lower entry
(`i > j`) is left unchanged; with `uplo = Lower` every strictly-upper entry
(`i < j`) is left unchanged. -/
theorem laset_strict_frame {α : Type} (m n : Nat) (alpha beta : α)
    (A : Mat α) (i j : Nat) :
    (j < i → laset Uplo.Upper alpha beta m n A i j = A i j) ∧
    (i < j → laset Uplo.Lower alpha beta m n A i j = A i j) := by
  constructor
  · intro h
    simp only [laset]
    rw [foldl_writeM_diag, foldl_writeM_grid]
    have h1 : ¬ (i ∈ List.range (min m n) ∧ j = i) := by
      rintro ⟨-, rfl⟩; omega
    have h2 : ¬ (j ∈ List.range' 1 (n - 1) ∧ i ∈ List.range (min m j)) := by
      rintro ⟨-, hi⟩
      rw [List.mem_range] at hi
      omega
    rw [if_neg h1, if_neg h2]
  · intro h
    simp only [laset]
    rw [foldl_writeM_diag, foldl_writeM_grid]
    have h1 : ¬ (i ∈ List.range (min m n) ∧ j = i) := by
      rintro ⟨-, rfl⟩; omega
    have h2 : ¬ (j ∈ List.range (min m n) ∧
        i ∈ List.range' (j + 1) (m - (j + 1))) := by
      rintro ⟨-, hi⟩
      rw [List.mem_range'_1] at hi
      omega
    rw [if_neg h1, if_neg h2]

/-- Witness for laset_strict_frame at a concrete input. -/
theorem laset_strict_frame_w :
    laset Uplo.Upper (3 : ℤ) 7 2 2 (fun _ _ => 5) 1 0 = 5 ∧
    laset Uplo.Lower (3 : ℤ) 7 2 2 (fun _ _ => 5) 0 1 = 5 :=
  ⟨(laset_strict_frame 2 2 3 7 (fun _ _ => 5) 1 0).1 (by decide),
   (laset_strict_frame 2 2 3 7 (fun _ _ => 5) 0 1).2 (by decide)⟩

/-- C10: after `laset(General, alpha, beta, A)` every off-diagonal entry
within the extents equals `alpha` and every diagonal entry `(i,i)` with
`i < min m n` equals `beta`, for every `alpha` and `beta` (including
`alpha = beta`): the diagonal assignment runs after the full fill and
overrides it. -/
theorem laset_general_fill {α : Type} (m n : Nat) (alpha beta : α)
    (A : Mat α) :
    (∀ i j, i < m → j < n → i ≠ j →
        laset Uplo.General alpha beta m n A i j = alpha) ∧
    (∀ i, i < min m n → laset Uplo.General alpha beta m n A i i = beta) := by
  constructor
  · intro i j hi hj hij
    simp only [laset]
    rw [foldl_writeM_diag, foldl_writeM_grid]
    have h1 : ¬ (i ∈ List.range (min m n) ∧ j = i) := by
      rintro ⟨-, rfl⟩; omega
    rw [if_neg h1, if_pos ⟨List.mem_range.mpr hj, List.mem_range.mpr hi⟩]
  · intro i hi
    simp only [laset]
    rw [foldl_writeM_diag]
    rw [if_pos ⟨List.mem_range.mpr hi, rfl⟩]

/-- Witness for laset_general_fill at a concrete input with alpha = beta. -/
theorem laset_general_fill_w :
    laset Uplo.General (3 : ℤ) 3 2 2 (fun _ _ => 5) 0 1 = 3 ∧
    laset Uplo.General (3 : ℤ) 3 2 2 (fun _ _ => 5) 0 0 = 3 :=
  ⟨(laset_general_fill 2 2 3 3 (fun _ _ => 5)).1 0 1 (by decide) (by decide)
      (by decide),
   (laset_general_fill 2 2 3 3 (fun _ _ => 5)).2 0 (by decide)⟩

/-! ### unglq (src/include/tlapack/lapack/unglq.hpp)

The driver mutates the matrix through three kinds of primitives whose own
sources (larft.hpp, larfb.hpp, ungl2.hpp) are not part of this slice; the
driver is therefore embedded parametrically over them (`Prims` below), so
every theorem about the driver's control flow and its own writes holds for
all instantiations of the primitives. -/

/-- Width of the unsigned index type `idx_t` in the source builds
(64-bit `std::size_t`).  Only underflow of `k - 1` at `k = 0` depends on it. -/
def idxW : Nat := 2 ^ 64

/-- The unsigned value of the C++ expression `k - 1` (unglq.hpp line 161):
`k - 1` for `k ≥ 1`, and the wrapped value `2^64 - 1` for `k = 0`. -/
def km1 (k : Nat) : Nat := (k + idxW - 1) % idxW

theorem km1_eq_sub_one (k : Nat) (h1 : 1 ≤ k) (h2 : k ≤ idxW) :
    km1 k = k - 1 := by
  have hW : 0 < idxW := by decide
  have h : k + idxW - 1 = (k - 1) + idxW := by omega
  rw [km1, h, Nat.add_mod_right, Nat.mod_eq_of_lt (by omega)]

/-- Options struct for unglq (unglq.hpp lines 27-33): block size, default 32. -/
structure UnglqOpts where
  nb : Nat := 32

/-- The effective block size `nb = min(opts.nb, k)` computed identically at
unglq.hpp line 62 (worksize query) and line 133 (driver). -/
def unglqNb (opts : UnglqOpts) (k : Nat) : Nat := min opts.nb k

/-- Body of one column iteration of the tail-seeding loop
(unglq.hpp lines 158-162): zero rows `k ≤ i < m` of column `j`, then set
`A(j,j) = 1` when `j < m && j > k - 1` (the comparison uses the unsigned
wrapped `k - 1`). -/
def seedCol (m k : Nat) (B : Mat ℤ) (j : Nat) : Mat ℤ :=
  let B1 := (List.range' k (m - k)).foldl (fun C i => writeM C i j 0) B
  if j < m ∧ km1 k < j then writeM B1 j j 1 else B1

/-- Tail seeding (unglq.hpp lines 156-163): when `m > k`, initialise rows
`k : m` to rows of the unit matrix, iterating columns `0 ≤ j < n`. -/
def seedTail (m n k : Nat) (A : Mat ℤ) : Mat ℤ :=
  if k < m then (List.range n).foldl (seedCol m k) A else A

theorem seedCol_apply (m k : Nat) (B : Mat ℤ) (a i' j' : Nat) (hkm : k ≤ m) :
    seedCol m k B a i' j' =
      if j' = a then
        (if i' = a ∧ a < m ∧ km1 k < a then 1
         else if k ≤ i' ∧ i' < m then 0 else B i' j')
      else B i' j' := by
  simp only [seedCol]
  by_cases hc : a < m ∧ km1 k < a
  · rw [if_pos hc, writeM_apply, foldl_writeM_col]
    simp only [List.mem_range'_1]
    split_ifs <;> first | rfl | omega
  · rw [if_neg hc, foldl_writeM_col]
    simp only [List.mem_range'_1]
    split_ifs <;> first | rfl | omega

theorem seed_fold (m k : Nat) (hkm : k ≤ m) :
    ∀ (js : List Nat) (A : Mat ℤ) (i' j' : Nat),
      (js.foldl (seedCol m k) A) i' j' =
        if j' ∈ js then
          (if i' = j' ∧ j' < m ∧ km1 k < j' then 1
           else if k ≤ i' ∧ i' < m then 0 else A i' j')
        else A i' j' := by
  intro js
  induction js with
  | nil => intro A i' j'; simp
  | cons a t ih =>
      intro A i' j'
      simp only [List.foldl_cons]
      rw [ih, seedCol_apply m k A a i' j' hkm]
      simp only [List.mem_cons]
      by_cases hja : j' = a
      · subst hja
        split_ifs <;> first | rfl | omega
      · split_ifs <;> first | rfl | omega | tauto

/-- Pointwise value of the tail seeding when `k < m`. -/
theorem seedTail_apply (m n k : Nat) (A : Mat ℤ) (hmk : k < m) (i' j' : Nat) :
    seedTail m n k A i' j' =
      if j' < n then
        (if i' = j' ∧ j' < m ∧ km1 k < j' then 1
         else if k ≤ i' ∧ i' < m then 0 else A i' j')
      else A i' j' := by
  rw [seedTail, if_pos hmk, seed_fold m k (Nat.le_of_lt hmk)]
  by_cases hn : j' < n
  · rw [if_pos (List.mem_range.mpr hn), if_pos hn]
  · rw [if_neg (by simp [hn]), if_neg hn]

/-- Counterexample to C5 as stated: at `k = 0`, `m = n = 1`, the tail seeding
leaves `A(0,0) = 0`, not the claimed unit diagonal value `1` (the C++
comparison `j > k - 1` underflows for `k = 0` and never holds). -/
theorem seedTail_k0_cex :
    seedTail 1 1 0 (fun _ _ => (5 : ℤ)) 0 0 = 0 ∧ ((0 : ℤ) ≠ 1) := by
  constructor
  · rw [seedTail_apply 1 1 0 (fun _ _ => (5 : ℤ)) (by decide) 0 0]
    rw [if_pos (by decide), if_neg (by decide), if_pos (by decide)]
  · decide

/-- C5, amended with `1 ≤ k` (and the machine-width bound `k ≤ 2^64` under
which `k - 1` does not wrap): when `m > k ≥ 1`, the tail seeding sets every
entry `A(i,j)` with `k ≤ i < m`, `j < n` to `0` except the diagonal entries
`A(j,j)` with `k ≤ j < m`, `j < n`, which are set to `1`; and the seeding is
skipped entirely when `m ≤ k`. -/
theorem seedTail_seeds (m n k : Nat) (A : Mat ℤ)
    (hk : 1 ≤ k) (hkW : k ≤ idxW) (hmk : k < m) :
    (∀ i j, k ≤ i → i < m → j < n → i ≠ j → seedTail m n k A i j = 0) ∧
    (∀ j, k ≤ j → j < m → j < n → seedTail m n k A j j = 1) ∧
    (∀ m' : Nat, m' ≤ k → seedTail m' n k A = A) := by
  refine ⟨?_, ?_, ?_⟩
  · intro i j hki him hjn hij
    rw [seedTail_apply m n k A hmk i j, if_pos hjn,
      if_neg (by tauto), if_pos ⟨hki, him⟩]
  · intro j hkj hjm hjn
    have hd : km1 k < j := by
      rw [km1_eq_sub_one k hk hkW]; omega
    rw [seedTail_apply m n k A hmk j j, if_pos hjn, if_pos ⟨rfl, hjm, hd⟩]
  · intro m' hm'
    rw [seedTail, if_neg (by omega)]

/-- Witness for seedTail_seeds at a concrete input. -/
theorem seedTail_seeds_w :
    seedTail 3 2 1 (fun _ _ => (5 : ℤ)) 2 0 = 0 ∧
    seedTail 3 2 1 (fun _ _ => (5 : ℤ)) 1 1 = 1 ∧
    seedTail 1 2 1 (fun _ _ => (5 : ℤ)) = (fun _ _ => (5 : ℤ)) :=
  ⟨(seedTail_seeds 3 2 1 (fun _ _ => (5 : ℤ)) (by decide)
      (by decide) (by decide)).1 2 0 (by decide) (by decide)
      (by decide) (by decide),
   (seedTail_seeds 3 2 1 (fun _ _ => (5 : ℤ)) (by decide)
      (by decide) (by decide)).2.1 1 (by decide) (by decide)
      (by decide),
   (seedTail_seeds 3 2 1 (fun _ _ => (5 : ℤ)) (by decide)
      (by decide) (by decide)).2.2 1 (by decide)⟩

/-- Rectangular sub-view `slice(A, range(r0, _), range(c0, _))`: element
`(i, j)` of the slice is element `(r0 + i, c0 + j)` of `A`.  Extents are
implicit, as reads outside a slice's extent never occur in the embedded
code paths. -/
def sliceM {α : Type} (A : Mat α) (r0 c0 : Nat) : Mat α :=
  fun i j => A (r0 + i) (c0 + j)

/-- Writing a computed sub-matrix `B` back into the region
`[r0, r1) × [c0, c1)` of `A`: the in-place mutation of a slice by a callee. -/
def writeBack {α : Type} (A B : Mat α) (r0 r1 c0 c1 : Nat) : Mat α :=
  fun i j =>
    if r0 ≤ i ∧ i < r1 ∧ c0 ≤ j ∧ j < c1 then B (i - r0) (j - c0) else A i j

/-- The three primitives called by the blocked driver.  Their sources
(larft.hpp, larfb.hpp, ungl2.hpp) are not part of this repository slice, so
the driver is embedded parametrically: every driver theorem below holds for
all instantiations.  `larft ib cols V taui` returns the triangular factor
written into the workspace matrix; `larfb ib cols rC V T C` returns the
updated trailing sub-matrix `C`; `ungl2 ib cols Ai taui` returns the
expanded panel. -/
structure Prims where
  larft : Nat → Nat → Mat ℤ → (Nat → ℤ) → Mat ℤ
  larfb : Nat → Nat → Nat → Mat ℤ → Mat ℤ → Mat ℤ → Mat ℤ
  ungl2 : Nat → Nat → Mat ℤ → (Nat → ℤ) → Mat ℤ

/-- Call events emitted by the driver, recording the block start index `i`
and the block's reflector count `ib`. -/
inductive Ev where
  | larft (i ib : Nat) : Ev
  | larfb (i ib : Nat) : Ev
  | ungl2 (i ib : Nat) : Ev
  | zero (i ib : Nat) : Ev
deriving DecidableEq

/-- The final write of each block iteration (unglq.hpp lines 186-188):
`for j = 0 .. i-1: for l = i .. i+ib-1: A(l, j) = zero`. -/
def zeroPreCols (A : Mat ℤ) (i ib : Nat) : Mat ℤ :=
  (List.range i).foldl
    (fun B j => (List.range' i ib).foldl (fun C l => writeM C l j 0) B) A

theorem zeroPreCols_apply (A : Mat ℤ) (i ib : Nat) (l j : Nat) :
    zeroPreCols A i ib l j =
      if j < i ∧ i ≤ l ∧ l < i + ib then 0 else A l j := by
  simp only [zeroPreCols]
  rw [foldl_writeM_grid]
  simp only [List.mem_range, List.mem_range'_1]

/-- One iteration of the driver's block loop (unglq.hpp lines 165-189):
with `ib = min(nb, k - i)` and `taui = tau[i : i+ib]`, when `i + ib < m`
build the triangular factor from `V = A[i : i+ib, i : n]` (larft, line 178)
and apply the block reflector to `C = A[i+ib : m, i : n]` (larfb, lines
179-180); then run the unblocked expansion on `Ai = A[i : i+ib, i : n]`
(ungl2, line 184); finally zero rows `i : i+ib` of columns `0 : i`
(lines 186-188).  The second component records the calls made. -/
def unglqBody (P : Prims) (m n k nbv : Nat) (tau : Nat → ℤ) (i : Nat)
    (A : Mat ℤ) : Mat ℤ × List Ev :=
  let ib := min nbv (k - i)
  let taui : Nat → ℤ := fun t => tau (i + t)
  let step1 : Mat ℤ × List Ev :=
    if i + ib < m then
      let V := sliceM A i i
      let Ti := P.larft ib (n - i) V taui
      let C := sliceM A (i + ib) i
      let C2 := P.larfb ib (n - i) (m - (i + ib)) V Ti C
      (writeBack A C2 (i + ib) m i n, [Ev.larft i ib, Ev.larfb i ib])
    else (A, [])
  let Ai := sliceM step1.1 i i
  let Ai2 := P.ungl2 ib (n - i) Ai taui
  let A2 := writeBack step1.1 Ai2 i (i + ib) i n
  (zeroPreCols A2 i ib, step1.2 ++ [Ev.ungl2 i ib, Ev.zero i ib])

/-- The events one block iteration emits. -/
def blockEvs (m k nbv i : Nat) : List Ev :=
  (if i + min nbv (k - i) < m then
      [Ev.larft i (min nbv (k - i)), Ev.larfb i (min nbv (k - i))]
    else []) ++
  [Ev.ungl2 i (min nbv (k - i)), Ev.zero i (min nbv (k - i))]

/-- The descending sequence of block start indices visited by the loop
`for (i = start; i != idx_t(-nb); i -= nb)`.  The loop is entered only with
`start` a multiple of `nb` (and `nb ≥ 1`), in which case the unsigned
wraparound check `i != idx_t(-nb)` exits exactly after the `i = 0`
iteration, which is what the recursion encodes (the `nbv = 0` disjunct only
serves totality; the driver guards `nbv = 0` before the loop). -/
def blockStarts (nbv : Nat) (i : Nat) : List Nat :=
  i :: (if _h : i = 0 ∨ nbv = 0 then [] else blockStarts nbv (i - nbv))
termination_by i
decreasing_by omega

/-- The driver's block loop (unglq.hpp lines 165-189), with the same
stopping structure as `blockStarts`. -/
def unglqLoop (P : Prims) (m n k nbv : Nat) (tau : Nat → ℤ) (i : Nat)
    (A : Mat ℤ) : Mat ℤ × List Ev :=
  if _h : i = 0 ∨ nbv = 0 then unglqBody P m n k nbv tau i A
  else
    ((unglqLoop P m n k nbv tau (i - nbv)
        (unglqBody P m n k nbv tau i A).1).1,
     (unglqBody P m n k nbv tau i A).2 ++
       (unglqLoop P m n k nbv tau (i - nbv)
         (unglqBody P m n k nbv tau i A).1).2)
termination_by i
decreasing_by omega

/-- The loop's initial block index `((k - 1) / nb) * nb` (unglq.hpp
line 165). -/
def unglqI0 (k nbv : Nat) : Nat := ((k - 1) / nbv) * nbv

/-- Failure modes of the embedded driver.  `checkFail` models
`tlapack_check_false(k > n)` (unglq.hpp line 136): the macro is not part of
this slice; per the spec's error design it is an invalid-argument failure
raised before any mutation, so the embedding returns the untouched matrix
with it.  `divByZero` marks the C++ undefined behaviour of evaluating
`((k - 1) / nb)` with `nb = min(opts.nb, k) = 0` at loop entry
(line 165), which the source does not guard against. -/
inductive UErr where
  | checkFail : UErr
  | divByZero : UErr
deriving DecidableEq

/-- The blocked driver `unglq` (unglq.hpp lines 116-192): compute
`nb = min(opts.nb, k)`; check `k ≤ n`; quick-return when `n ≤ 0`; seed the
tail rows when `m > k`; then run the descending block loop from
`((k - 1) / nb) * nb` and return 0.  The error component carries the matrix
state at the point of failure. -/
def unglq (P : Prims) (m n : Nat) (A : Mat ℤ) (tau : Nat → ℤ) (k : Nat)
    (opts : UnglqOpts) : Except (UErr × Mat ℤ) (Mat ℤ × List Ev × Int) :=
  if n < k then Except.error (UErr.checkFail, A)
  else if n = 0 then Except.ok (A, [], 0)
  else
    if unglqNb opts k = 0 then
      Except.error (UErr.divByZero, seedTail m n k A)
    else
      Except.ok ((unglqLoop P m n k (unglqNb opts k) tau
          (unglqI0 k (unglqNb opts k)) (seedTail m n k A)).1,
        (unglqLoop P m n k (unglqNb opts k) tau
          (unglqI0 k (unglqNb opts k)) (seedTail m n k A)).2, 0)

theorem unglqBody_trace (P : Prims) (m n k nbv : Nat) (tau : Nat → ℤ)
    (i : Nat) (A : Mat ℤ) :
    (unglqBody P m n k nbv tau i A).2 = blockEvs m k nbv i := by
  by_cases h : i + min nbv (k - i) < m <;> simp [unglqBody, blockEvs, h]

theorem unglqLoop_trace (P : Prims) (m n k nbv : Nat) (tau : Nat → ℤ) :
    ∀ (i : Nat) (A : Mat ℤ),
      (unglqLoop P m n k nbv tau i A).2 =
        (blockStarts nbv i).flatMap (blockEvs m k nbv) := by
  intro i
  induction i using Nat.strong_induction_on with
  | _ i ih =>
    intro A
    rw [unglqLoop, blockStarts]
    by_cases h0 : i = 0 ∨ nbv = 0
    · rw [dif_pos h0, dif_pos h0]
      simp [unglqBody_trace]
    · rw [dif_neg h0, dif_neg h0]
      simp only [List.flatMap_cons]
      rw [unglqBody_trace,
        ih (i - nbv) (by omega) (unglqBody P m n k nbv tau i A).1]

theorem blockStarts_head (nbv i : Nat) :
    (blockStarts nbv i).head? = some i := by
  rw [blockStarts]
  rfl

theorem blockStarts_chain (nbv : Nat) (h : 0 < nbv) :
    ∀ i, nbv ∣ i →
      List.Chain' (fun a b => b + nbv = a) (blockStarts nbv i) := by
  intro i
  induction i using Nat.strong_induction_on with
  | _ i ih =>
    intro hdvd
    rw [blockStarts]
    by_cases h0 : i = 0 ∨ nbv = 0
    · rw [dif_pos h0]
      exact List.chain'_singleton i
    · rw [dif_neg h0]
      have hi : 0 < i := by omega
      have hle : nbv ≤ i := Nat.le_of_dvd hi hdvd
      have ihc := ih (i - nbv) (by omega) (Nat.dvd_sub' hdvd dvd_rfl)
      refine List.chain'_cons'.mpr ⟨?_, ihc⟩
      intro y hy
      rw [blockStarts_head] at hy
      simp only [Option.mem_def, Option.some.injEq] at hy
      omega

theorem blockStarts_concat (nbv : Nat) (h : 0 < nbv) :
    ∀ i, ∃ l, blockStarts nbv i = l ++ [0] := by
  intro i
  induction i using Nat.strong_induction_on with
  | _ i ih =>
    by_cases h0 : i = 0 ∨ nbv = 0
    · have hi : i = 0 := by omega
      subst hi
      exact ⟨[], by rw [blockStarts, dif_pos h0]; rfl⟩
    · obtain ⟨l, hl⟩ := ih (i - nbv) (by omega)
      exact ⟨i :: l, by rw [blockStarts, dif_neg h0, hl]; rfl⟩

/-- Concrete primitive instantiation and inputs used by the witnesses. -/
def P0 : Prims where
  larft := fun _ _ V _ => V
  larfb := fun _ _ _ _ _ C => C
  ungl2 := fun _ _ Ai _ => Ai

/-- Concrete constant example matrix used by the witnesses. -/
def exA : Mat ℤ := fun _ _ => 5

/-- Concrete example tau vector used by the witnesses. -/
def exTau : Nat → ℤ := fun _ => 0

/-- C1: for a call of `unglq` with `k ≥ 1` reflectors, `k ≤ n` and a
positive configured block size (the spec's domain for `nb` is `1 ≤ nb`),
the driver succeeds and its call trace is exactly the concatenation, over
block start indices descending from `((k-1)/nb)*nb` in steps of exactly
`nb` down to `0`, of the per-block events: `larft` then `larfb` exactly
when `i + ib < m` (with `ib = min(nb, k - i)`), followed by `ungl2` and the
pre-column zeroing. -/
theorem unglq_descending_blocks (P : Prims) (m n k : Nat) (A : Mat ℤ)
    (tau : Nat → ℤ) (opts : UnglqOpts)
    (hk : 1 ≤ k) (hkn : k ≤ n) (hnb : 1 ≤ opts.nb) :
    unglq P m n A tau k opts =
      Except.ok ((unglqLoop P m n k (unglqNb opts k) tau
          (unglqI0 k (unglqNb opts k)) (seedTail m n k A)).1,
        (blockStarts (unglqNb opts k) (unglqI0 k (unglqNb opts k))).flatMap
          (blockEvs m k (unglqNb opts k)), 0) ∧
    (blockStarts (unglqNb opts k) (unglqI0 k (unglqNb opts k))).head? =
      some (unglqI0 k (unglqNb opts k)) ∧
    List.Chain' (fun a b => b + unglqNb opts k = a)
      (blockStarts (unglqNb opts k) (unglqI0 k (unglqNb opts k))) ∧
    (blockStarts (unglqNb opts k) (unglqI0 k (unglqNb opts k))).getLast? =
      some 0 := by
  have hpos : 0 < unglqNb opts k := by
    have := Nat.le_min.mpr ⟨hnb, hk⟩
    simpa [unglqNb] using this
  have hdvd : unglqNb opts k ∣ unglqI0 k (unglqNb opts k) :=
    dvd_mul_left _ _
  refine ⟨?_, blockStarts_head _ _, blockStarts_chain _ hpos _ hdvd, ?_⟩
  · rw [unglq, if_neg (by omega), if_neg (by omega), if_neg (by omega),
      unglqLoop_trace]
  · obtain ⟨l, hl⟩ := blockStarts_concat (unglqNb opts k) hpos
      (unglqI0 k (unglqNb opts k))
    rw [hl, List.getLast?_concat]

/-- Witness for unglq_descending_blocks at a concrete input
(`m = 3`, `n = 4`, `k = 3`, default options). -/
theorem unglq_descending_blocks_w :
    unglq P0 3 4 exA exTau 3 {} =
      Except.ok ((unglqLoop P0 3 4 3 (unglqNb {} 3) exTau
          (unglqI0 3 (unglqNb {} 3)) (seedTail 3 4 3 exA)).1,
        (blockStarts (unglqNb {} 3) (unglqI0 3 (unglqNb {} 3))).flatMap
          (blockEvs 3 3 (unglqNb {} 3)), 0) ∧
    (blockStarts (unglqNb {} 3) (unglqI0 3 (unglqNb {} 3))).head? =
      some (unglqI0 3 (unglqNb {} 3)) ∧
    List.Chain' (fun a b => b + unglqNb {} 3 = a)
      (blockStarts (unglqNb {} 3) (unglqI0 3 (unglqNb {} 3))) ∧
    (blockStarts (unglqNb {} 3) (unglqI0 3 (unglqNb {} 3))).getLast? =
      some 0 :=
  unglq_descending_blocks P0 3 4 3 exA exTau {} (by decide) (by decide)
    (by decide)

/-- C6: after processing the block starting at `i` with
`ib = min(nb, k - i)` reflectors — the block-reflector update (when a
trailing part exists), the unblocked expansion, and the final zeroing loop —
every entry `A(l, j)` with `i ≤ l < i + ib` and `j < i` is zero, for every
instantiation of the primitives and every incoming matrix state. -/
theorem unglq_zero_cols_before_block (P : Prims) (m n k nbv : Nat)
    (tau : Nat → ℤ) (i : Nat) (A : Mat ℤ) (l j : Nat)
    (h1 : i ≤ l) (h2 : l < i + min nbv (k - i)) (h3 : j < i) :
    (unglqBody P m n k nbv tau i A).1 l j = 0 := by
  simp only [unglqBody]
  rw [zeroPreCols_apply, if_pos ⟨h3, h1, h2⟩]

/-- Witness for unglq_zero_cols_before_block at a concrete input. -/
theorem unglq_zero_cols_before_block_w :
    (unglqBody P0 2 2 2 1 exTau 1 exA).1 1 0 = 0 :=
  unglq_zero_cols_before_block P0 2 2 2 1 exTau 1 exA 1 0 (by decide)
    (by decide) (by decide)

/-- C4 fails on the code: with `k = 0` and `n > 0` there is no quick return
(`unglq` only quick-returns on `n ≤ 0`, line 139), so the driver first
overwrites `A` in the tail seeding (with `m = 1 > 0 = k` it sets
`A(0,0) = 0`, and the wrapped `j > k - 1` sets no diagonal one), and then
evaluates `((k - 1) / nb) * nb` with `nb = min(32, 0) = 0` — an unsigned
division by zero, i.e. undefined behaviour instead of the claimed clean
return 0 with `A` untouched. -/
theorem unglq_k0_crash :
    unglq P0 1 1 exA exTau 0 {} =
      Except.error (UErr.divByZero, seedTail 1 1 0 exA) ∧
    seedTail 1 1 0 exA 0 0 = 0 ∧ exA 0 0 = 5 := by
  refine ⟨?_, ?_, rfl⟩
  · rw [unglq, if_neg (by decide), if_neg (by decide), if_pos (by decide)]
  · rw [seedTail_apply 1 1 0 exA (by decide) 0 0,
      if_pos (by decide), if_neg (by decide), if_pos (by decide)]

/-! ### Workspace protocol (unglq.hpp lines 51-82, 141-154) -/

/-- Modelled from the spec: `larfb_worksize` (called at unglq.hpp line 77)
is not part of this repository slice.  Spec §4.3 sizes the
BlockReflectorApply scratch as an nb-high auxiliary work matrix spanning
the updated sub-matrix's other extent, i.e. `rC * nb` scalar elements for a
right-side application to an `rC`-row trailing sub-matrix `C`. -/
def larfb_worksize (rC nbv : Nat) : Nat := rC * nbv

/-- The workspace query `unglq_worksize` (unglq.hpp lines 51-82), in scalar
elements: the `nb × nb` factor matrix `T` (line 65) plus the larfb
requirement queried with `C = A` (all `m` rows, lines 67-79), where
`nb = min(opts.nb, k)` (line 62).  The query is a function of the extents
and configuration alone, so it cannot read or modify `A`, `tau`, or any
other state. -/
def unglq_worksize (m k : Nat) (opts : UnglqOpts) : Nat :=
  unglqNb opts k * unglqNb opts k + larfb_worksize m (unglqNb opts k)

/-- Scratch elements the driver actually needs while processing the block
starting at `i`: the `nb × nb` matrix `T` carved out of the workspace first
(unglq.hpp line 150) plus, when a trailing part exists, the larfb scratch
for the `(m - (i + ib))`-row trailing sub-matrix (lines 171-180). -/
def unglq_required (m k : Nat) (opts : UnglqOpts) (i : Nat) : Nat :=
  unglqNb opts k * unglqNb opts k +
    (if i + min (unglqNb opts k) (k - i) < m then
        larfb_worksize (m - (i + min (unglqNb opts k) (k - i)))
          (unglqNb opts k)
      else 0)

/-- C2: the workspace reported by the query is sufficient for the
subsequent `unglq` call: for every extent, reflector count, configuration
and block index, the driver's per-block scratch requirement is at most the
queried size. -/
theorem unglq_worksize_sufficient (m k : Nat) (opts : UnglqOpts) (i : Nat) :
    unglq_required m k opts i ≤ unglq_worksize m k opts := by
  unfold unglq_required unglq_worksize larfb_worksize
  split_ifs
  · exact Nat.add_le_add_left (Nat.mul_le_mul_right _ (Nat.sub_le m _)) _
  · simp

/-- C8: the block size is a per-call configuration parameter with default
value 32, the effective block size shared by the driver and the workspace
query is `min(opts.nb, k)` — hence at most `k` — and the per-block
reflector count `ib = min(nb, k - i)` never exceeds `k`. -/
theorem unglq_nb_clamp :
    ({} : UnglqOpts).nb = 32 ∧
    (∀ (opts : UnglqOpts) (k : Nat), unglqNb opts k = min opts.nb k) ∧
    (∀ (opts : UnglqOpts) (k : Nat), unglqNb opts k ≤ k) ∧
    (∀ (opts : UnglqOpts) (k i : Nat), min (unglqNb opts k) (k - i) ≤ k) := by
  refine ⟨rfl, fun _ _ => rfl, fun _ k => Nat.min_le_right _ _, ?_⟩
  intro opts k i
  have := Nat.min_le_right (unglqNb opts k) (k - i)
  omega

/-! ### ung2r (src/include/legacy_api/lapack/ung2r.hpp) -/

/-- The legacy wrapper `ung2r` (ung2r.hpp lines 43-73).  The argument
checks, their codes and their order, and the quick return are those of the
source (lines 52-58).  The semantics of `tlapack_check_false(cond, code)`
— the macro is not part of this slice — is modelled from the file's own
contract "@return -i if the ith argument is invalid" as an immediate return
of the given code with the matrix untouched.  `inner` stands for the
generic `ung2r(k, A_, _tau, _work)` kernel call at line 69 (also outside
this slice), whose info code and mutated matrix the wrapper forwards. -/
def ung2r (inner : Int → Mat ℤ → (Nat → ℤ) → Int × Mat ℤ)
    (m n k : Int) (A : Mat ℤ) (lda : Int) (tau : Nat → ℤ) : Int × Mat ℤ :=
  if m < 0 then (-1, A)
  else if n < 0 ∨ n > m then (-2, A)
  else if k < 0 ∨ k > n then (-3, A)
  else if lda < m then (-5, A)
  else if n ≤ 0 then (0, A)
  else ((inner k A tau).1, (inner k A tau).2)

/-- C3: `unglq` rejects `k > n` through the argument check before any
mutation, returning with the matrix unchanged; and the legacy `ung2r`
rejects `k > n` (code -3) and `n > m` (code -2) with a negative result
code and an unmodified matrix. -/
theorem unglq_ung2r_reject (P : Prims) (m n : Nat) (A : Mat ℤ)
    (tau : Nat → ℤ) (k : Nat) (opts : UnglqOpts)
    (inner : Int → Mat ℤ → (Nat → ℤ) → Int × Mat ℤ)
    (m2 n2 k2 lda2 : Int) (A2 : Mat ℤ) (tau2 : Nat → ℤ)
    (m3 n3 k3 lda3 : Int) (A3 : Mat ℤ) (tau3 : Nat → ℤ)
    (hkn : n < k)
    (hm2 : 0 ≤ m2) (hn2 : 0 ≤ n2) (hnm2 : n2 ≤ m2) (hk2 : n2 < k2)
    (hm3 : 0 ≤ m3) (hnm3 : m3 < n3) :
    unglq P m n A tau k opts = Except.error (UErr.checkFail, A) ∧
    ung2r inner m2 n2 k2 A2 lda2 tau2 = (-3, A2) ∧
    ung2r inner m3 n3 k3 A3 lda3 tau3 = (-2, A3) := by
  refine ⟨?_, ?_, ?_⟩
  · rw [unglq, if_pos hkn]
  · rw [ung2r, if_neg (by omega), if_neg (by omega), if_pos (by omega)]
  · rw [ung2r, if_neg (by omega), if_pos (by omega)]

/-- Inner kernel instantiation used by the witnesses. -/
def innerZ : Int → Mat ℤ → (Nat → ℤ) → Int × Mat ℤ := fun _ A _ => (0, A)

/-- Witness for unglq_ung2r_reject at concrete inputs. -/
theorem unglq_ung2r_reject_w :
    unglq P0 1 1 exA exTau 2 {} = Except.error (UErr.checkFail, exA) ∧
    ung2r innerZ 1 1 2 exA 1 exTau = (-3, exA) ∧
    ung2r innerZ 1 2 0 exA 1 exTau = (-2, exA) :=
  unglq_ung2r_reject P0 1 1 exA exTau 2 {} innerZ 1 1 2 1 exA exTau
    1 2 0 1 exA exTau (by decide) (by decide) (by decide) (by decide)
    (by decide) (by decide) (by decide)

/-- C7: the legacy `ung2r` signals each argument-validation failure with
minus the index of the violated argument, checked in order — -1 for
`m < 0`, -2 for `n < 0` or `n > m`, -3 for `k < 0` or `k > n`, -5 for
`lda < m` — and returns success code 0 immediately for valid arguments
with `n = 0`. -/
theorem ung2r_info_codes
    (inner : Int → Mat ℤ → (Nat → ℤ) → Int × Mat ℤ) (tau : Nat → ℤ)
    (m1 n1 k1 lda1 : Int) (A1 : Mat ℤ)
    (m2 n2 k2 lda2 : Int) (A2 : Mat ℤ)
    (m3 n3 k3 lda3 : Int) (A3 : Mat ℤ)
    (m4 n4 k4 lda4 : Int) (A4 : Mat ℤ)
    (m5 n5 k5 lda5 : Int) (A5 : Mat ℤ)
    (h1 : m1 < 0)
    (h2m : 0 ≤ m2) (h2 : n2 < 0 ∨ n2 > m2)
    (h3m : 0 ≤ m3) (h3n : 0 ≤ n3) (h3nm : n3 ≤ m3) (h3 : k3 < 0 ∨ k3 > n3)
    (h4m : 0 ≤ m4) (h4n : 0 ≤ n4) (h4nm : n4 ≤ m4) (h4k : 0 ≤ k4)
    (h4kn : k4 ≤ n4) (h4 : lda4 < m4)
    (h5m : 0 ≤ m5) (h5n : n5 = 0) (h5k : 0 ≤ k5) (h5kn : k5 ≤ n5)
    (h5lda : m5 ≤ lda5) :
    ung2r inner m1 n1 k1 A1 lda1 tau = (-1, A1) ∧
    ung2r inner m2 n2 k2 A2 lda2 tau = (-2, A2) ∧
    ung2r inner m3 n3 k3 A3 lda3 tau = (-3, A3) ∧
    ung2r inner m4 n4 k4 A4 lda4 tau = (-5, A4) ∧
    ung2r inner m5 n5 k5 A5 lda5 tau = (0, A5) := by
  refine ⟨?_, ?_, ?_, ?_, ?_⟩
  · rw [ung2r, if_pos h1]
  · rw [ung2r, if_neg (by omega), if_pos (by omega)]
  · rw [ung2r, if_neg (by omega), if_neg (by omega), if_pos (by omega)]
  · rw [ung2r, if_neg (by omega), if_neg (by omega), if_neg (by omega),
      if_pos h4]
  · rw [ung2r, if_neg (by omega), if_neg (by omega), if_neg (by omega),
      if_neg (by omega), if_pos (by omega)]

/-- Witness for ung2r_info_codes at concrete inputs. -/
theorem ung2r_info_codes_w :
    ung2r innerZ (-1) 0 0 exA 0 exTau = (-1, exA) ∧
    ung2r innerZ 0 1 0 exA 0 exTau = (-2, exA) ∧
    ung2r innerZ 1 1 2 exA 1 exTau = (-3, exA) ∧
    ung2r innerZ 1 1 1 exA 0 exTau = (-5, exA) ∧
    ung2r innerZ 1 0 0 exA 1 exTau = (0, exA) :=
  ung2r_info_codes innerZ exTau (-1) 0 0 0 exA 0 1 0 0 exA 1 1 2 1 exA
    1 1 1 0 exA 1 0 0 1 exA (by decide) (by decide) (by decide) (by decide)
    (by decide) (by decide) (by decide) (by decide) (by decide) (by decide)
    (by decide) (by decide) (by decide) (by decide) (by decide) (by decide)
    (by decide) (by decide)

end Tlapack
